import Mathlib

/-!
Verification of the table-of-contents component `src/components/TOCInline.tsx`.

The component consumes a flat list of heading records (`TocItem`), filters it
by depth bounds and an exclusion pattern, builds a nested forest with a
stack-based algorithm (`createNestedList`), and renders the forest as nested
`<ul>`/`<li>` markup (`createList`).

Modelling notes:
* JavaScript numbers used as heading depths are modelled as `Nat` (the source
  only compares them with `>=`, `<=`).
* The source mutates `parent.children` through object references; a node's
  children list is only complete once the node can no longer receive children,
  i.e. once it is popped from the stack.  The functional embedding therefore
  carries `(item, childrenSoFar)` pairs on the stack and assembles a node when
  it is popped (and pops every remaining node at the end of the traversal).
* `new RegExp("^(" ++ p ++ ")$", "i").test(v)` is modelled for patterns free
  of regex metacharacters: the anchored alternation matches `v` iff `v` equals
  one of the alternatives, case-insensitively (the "i" flag is modelled by
  `String.toLower` on both sides).  Joining an empty pattern array produces
  the regex `^()$`, which matches exactly the empty string, i.e. it behaves
  like the single empty pattern.
-/

namespace TOC

/-- A flat table-of-contents entry, `TocItem` from pliny's
`remark-toc-headings`: display text, anchor url and heading depth. -/
structure TocItem where
  value : String
  url : String
  depth : Nat
deriving Repr, DecidableEq

/-- A table-of-contents entry together with its nested children
(`NestedTocItem` from `pliny/ui/TOCInline`).  The optional `children` field of
the source is modelled as a plain list, with `[]` for an absent field (the
renderer treats the two identically). -/
inductive NestedTocItem : Type where
  | mk : (value : String) → (url : String) → (depth : Nat) →
      (children : List NestedTocItem) → NestedTocItem
deriving Repr

/-- Display value of a nested node. -/
def NestedTocItem.value : NestedTocItem → String
  | .mk v _ _ _ => v

/-- Anchor url of a nested node. -/
def NestedTocItem.url : NestedTocItem → String
  | .mk _ u _ _ => u

/-- Depth of a nested node. -/
def NestedTocItem.depth : NestedTocItem → Nat
  | .mk _ _ d _ => d

/-- Children of a nested node. -/
def NestedTocItem.children : NestedTocItem → List NestedTocItem
  | .mk _ _ _ cs => cs

/-- The flat record carried by a nested node (the `{ ...item }` spread copies
exactly the three `TocItem` fields). -/
def toItem (n : NestedTocItem) : TocItem :=
  ⟨n.value, n.url, n.depth⟩

/-- Assemble a finished node from its flat record and its final children. -/
def close (it : TocItem) (cs : List NestedTocItem) : NestedTocItem :=
  .mk it.value it.url it.depth cs

/-- An open node on the auxiliary stack of `createNestedList`: the flat record
together with the children pushed into it so far. -/
abbrev StackEntry := TocItem × List NestedTocItem

/-- Close a run of popped stack entries (listed top of stack first): each
closed node becomes the last child of the entry below it, which is then closed
in turn.  This realises, node by node, the `children.push` mutations that the
source performed when the popped nodes were pushed. -/
def closeRun : List StackEntry → NestedTocItem → NestedTocItem
  | [], n => n
  | (t, c) :: rest, n => closeRun rest (close t (c ++ [n]))

/-- The `while` loop of `createNestedList` (TOCInline.tsx lines 14-16): pop
every stack entry whose depth is `≥ d`.  The popped entries form the maximal
run from the top of the stack satisfying the condition; the bottom-most popped
node is attached as the last child of the surviving top entry, or appended to
the root list when the stack empties. -/
def stackPop (d : Nat) (stack : List StackEntry) (roots : List NestedTocItem) :
    List StackEntry × List NestedTocItem :=
  match stack.takeWhile (fun e => decide (d ≤ e.1.depth)),
      stack.dropWhile (fun e => decide (d ≤ e.1.depth)) with
  | [], _ => (stack, roots)
  | (t, c) :: ps, remaining =>
    match remaining with
    | [] => ([], roots ++ [closeRun ps (close t c)])
    | (t2, c2) :: r2 => ((t2, c2 ++ [closeRun ps (close t c)]) :: r2, roots)

/-- One iteration of the `items.forEach` body (TOCInline.tsx lines 11-28):
pop every open node of depth `≥ item.depth`, then push the new item with no
children yet.  The attachment of the new item to its parent (lines 20-25) is
performed when the item itself is later popped. -/
def stepItem (s : List StackEntry × List NestedTocItem) (item : TocItem) :
    List StackEntry × List NestedTocItem :=
  let s' := stackPop item.depth s.1 s.2
  ((item, []) :: s'.1, s'.2)

/-- `createNestedList` (TOCInline.tsx lines 7-31): fold the heading sequence
through `stepItem` starting from an empty stack and an empty root list, then
pop every node still open at the end (their `children` lists are complete once
the traversal ends). -/
def createNestedList (items : List TocItem) : List NestedTocItem :=
  let s := items.foldl stepItem ([], [])
  (stackPop 0 s.1 s.2).2

/-- The `exclude` prop of `TOCInline`: a single pattern string or an array of
pattern strings. -/
inductive Exclude where
  | str (s : String)
  | arr (l : List String)
deriving Repr, DecidableEq

/-- Alternatives of the compiled exclusion regex
`^(exclude)$` / `^(exclude.join("|"))$` (TOCInline.tsx lines 43-45), for
patterns free of regex metacharacters.  Joining the empty array yields the
regex `^()$`, which matches exactly the empty string, i.e. the single empty
alternative. -/
def excludeAlternatives : Exclude → List String
  | .str s => [s]
  | .arr [] => [""]
  | .arr (p :: ps) => p :: ps

/-- Character-wise lower-casing of a string (the JS `toLowerCase` used to
model the regex "i" flag). -/
def lowerStr (s : String) : String :=
  String.mk (s.data.map Char.toLower)

/-- `re.test (v)` for the compiled case-insensitive exclusion regex: `v`
equals one of the alternatives up to case. -/
def reTest (e : Exclude) (v : String) : Bool :=
  (excludeAlternatives e).any (fun p => lowerStr p == lowerStr v)

/-- The props of `TOCInline` (TOCInline.tsx lines 33-42) with their source
default values. -/
structure TOCConfig where
  fromHeading : Nat := 1
  toHeading : Nat := 6
  asDisclosure : Bool := false
  exclude : Exclude := .str ""
  collapse : Bool := false
  ulClassName : String := "list-decimal"
  liClassName : String := ""
deriving Repr, DecidableEq

/-- `filteredToc` (TOCInline.tsx lines 47-52): keep a heading iff its depth
lies within `[fromHeading, toHeading]` and its value does not match the
exclusion regex. -/
def filteredToc (cfg : TOCConfig) (toc : List TocItem) : List TocItem :=
  toc.filter (fun heading =>
    decide (cfg.fromHeading ≤ heading.depth) &&
    decide (heading.depth ≤ cfg.toHeading) &&
    !(reTest cfg.exclude heading.value))

/-- The forest rendered by `TOCInline` (TOCInline.tsx line 75): the tree of
the filtered headings.  Filtering happens on the flat sequence, before tree
construction. -/
def tocForest (cfg : TOCConfig) (toc : List TocItem) : List NestedTocItem :=
  createNestedList (filteredToc cfg toc)

/-- The fragment of rendered markup the claims are about: an empty fragment
`<></>`, a `<ul>` list, or a `<li>` item holding its link (href and text) and
the rendering of its children. -/
inductive Html : Type where
  | fragment : Html
  | ul : (className : String) → (items : List Html) → Html
  | li : (className : String) → (href : String) → (text : String) →
      (sub : Html) → Html
deriving Repr

mutual
/-- `createList` (TOCInline.tsx lines 54-73): an empty or absent list renders
as the empty fragment, otherwise as a `<ul>` of one `<li>` per node. -/
def createList (ulC liC : String) : List NestedTocItem → Html
  | [] => Html.fragment
  | n :: ns => Html.ul ulC (renderLi ulC liC n :: renderLis ulC liC ns)

/-- One `<li>` of `createList` (lines 62-69): the node's link followed by the
rendering of its children. -/
def renderLi (ulC liC : String) : NestedTocItem → Html
  | NestedTocItem.mk v u _ cs => Html.li liC u v (createList ulC liC cs)

/-- The mapped tail of `items.map` in `createList`. -/
def renderLis (ulC liC : String) : List NestedTocItem → List Html
  | [] => []
  | n :: ns => renderLi ulC liC n :: renderLis ulC liC ns
end

/-! ### Specification-side definitions -/

/-- Boolean form of "strictly deeper than `d`". -/
def deeperThan (d : Nat) (x : TocItem) : Bool :=
  decide (d < x.depth)

/-- Recursive-descent specification of the tree builder: the first heading
becomes a root whose children are built from the maximal run of strictly
deeper headings that follows it; the remainder is built alongside.
`createNestedList` is proved equal to this function below. -/
def buildForest : List TocItem → List NestedTocItem
  | [] => []
  | item :: rest =>
    close item (buildForest (rest.takeWhile (deeperThan item.depth))) ::
      buildForest (rest.dropWhile (deeperThan item.depth))
termination_by l => l.length
decreasing_by
  · exact Nat.lt_succ_of_le (List.takeWhile_sublist _).length_le
  · exact Nat.lt_succ_of_le (List.dropWhile_sublist _).length_le

/-- Run the remaining input against a stack of open nodes: the top entry
absorbs the maximal strictly-deeper run of the input as further children, is
closed into its parent (or the root list), and so on; once the stack is empty
the rest of the input builds the remaining roots. -/
def runSpec : List StackEntry → List NestedTocItem → List TocItem →
    List NestedTocItem
  | [], roots, l => roots ++ buildForest l
  | (t, c) :: stk, roots, l =>
    match stk with
    | [] =>
      runSpec [] (roots ++ [close t (c ++ buildForest (l.takeWhile (deeperThan t.depth)))])
        (l.dropWhile (deeperThan t.depth))
    | (t2, c2) :: stk2 =>
      runSpec ((t2, c2 ++ [close t (c ++ buildForest (l.takeWhile (deeperThan t.depth)))]) :: stk2)
        roots (l.dropWhile (deeperThan t.depth))
termination_by stk _ _ => stk.length

mutual
/-- Number of nodes of a tree (the node itself plus all descendants). -/
def sizeNode : NestedTocItem → Nat
  | .mk _ _ _ cs => 1 + sizeForest cs
/-- Number of nodes of a forest, counted recursively. -/
def sizeForest : List NestedTocItem → Nat
  | [] => 0
  | n :: ns => sizeNode n + sizeForest ns
end

mutual
/-- Pre-order traversal of a tree: the node's record followed by the
traversal of its children, in stored order. -/
def preorderN : NestedTocItem → List TocItem
  | .mk v u d cs => ⟨v, u, d⟩ :: preorderF cs
/-- Pre-order traversal of a forest. -/
def preorderF : List NestedTocItem → List TocItem
  | [] => []
  | n :: ns => preorderN n ++ preorderF ns
end

mutual
/-- All nodes of a tree: the node itself and every descendant. -/
def memberN : NestedTocItem → List NestedTocItem
  | .mk v u d cs => .mk v u d cs :: memberF cs
/-- All nodes of a forest. -/
def memberF : List NestedTocItem → List NestedTocItem
  | [] => []
  | n :: ns => memberN n ++ memberF ns
end

/-! ### Generic list lemmas -/

section ListLemmas

variable {α : Type _} {p q : α → Bool}

/-- `takeWhile` with a stronger predicate ignores a previous `takeWhile` with
a weaker one. -/
theorem takeWhile_takeWhile_of_imp (h : ∀ x, p x = true → q x = true) :
    ∀ l : List α, (l.takeWhile q).takeWhile p = l.takeWhile p
  | [] => rfl
  | x :: l => by
    by_cases hq : q x = true
    · by_cases hp : p x = true
      · simp [List.takeWhile_cons, hq, hp, takeWhile_takeWhile_of_imp h l]
      · simp [List.takeWhile_cons, hq, hp]
    · have hp : ¬ p x = true := fun hpx => hq (h x hpx)
      simp [List.takeWhile_cons, hq, hp]

/-- `dropWhile` with a weaker predicate absorbs a previous `dropWhile` with a
stronger one. -/
theorem dropWhile_dropWhile_of_imp (h : ∀ x, p x = true → q x = true) :
    ∀ l : List α, (l.dropWhile p).dropWhile q = l.dropWhile q
  | [] => rfl
  | x :: l => by
    by_cases hq : q x = true
    · by_cases hp : p x = true
      · simp [List.dropWhile_cons, hq, hp, dropWhile_dropWhile_of_imp h l]
      · simp [List.dropWhile_cons, hq, hp]
    · have hp : ¬ p x = true := fun hpx => hq (h x hpx)
      simp [List.dropWhile_cons, hq, hp]

/-- A `takeWhile` with a weaker predicate commutes with a `dropWhile` with a
stronger one. -/
theorem takeWhile_dropWhile_comm (h : ∀ x, p x = true → q x = true) :
    ∀ l : List α, (l.dropWhile p).takeWhile q = (l.takeWhile q).dropWhile p
  | [] => rfl
  | x :: l => by
    by_cases hp : p x = true
    · have hq : q x = true := h x hp
      simp [List.takeWhile_cons, List.dropWhile_cons, hp, hq,
        takeWhile_dropWhile_comm h l]
    · by_cases hq : q x = true
      · simp [List.takeWhile_cons, List.dropWhile_cons, hp, hq]
      · simp [List.takeWhile_cons, List.dropWhile_cons, hp, hq]

/-- `takeWhile` over an append whose right part contributes nothing. -/
theorem takeWhile_append_of_nil {l₂ : List α} (h : l₂.takeWhile p = []) :
    ∀ l₁ : List α, (l₁ ++ l₂).takeWhile p = l₁.takeWhile p
  | [] => by simpa using h
  | x :: l₁ => by
    by_cases hp : p x = true
    · simp [List.takeWhile_cons, hp, takeWhile_append_of_nil h l₁]
    · simp [List.takeWhile_cons, hp]

/-- After dropping a `p`-prefix, a `takeWhile` with a predicate at least as
strong as `p` takes nothing. -/
theorem takeWhile_dropWhile_nil (h : ∀ x, q x = true → p x = true) :
    ∀ l : List α, (l.dropWhile p).takeWhile q = []
  | [] => rfl
  | x :: l => by
    by_cases hp : p x = true
    · simp [List.dropWhile_cons, hp, takeWhile_dropWhile_nil h l]
    · have hq : ¬ q x = true := fun hqx => hp (h x hqx)
      simp [List.dropWhile_cons, List.takeWhile_cons, hp, hq]

/-- Filtering with a stronger predicate keeps at most as many elements. -/
theorem length_filter_mono (h : ∀ x, p x = true → q x = true) :
    ∀ l : List α, (l.filter p).length ≤ (l.filter q).length
  | [] => Nat.le_refl _
  | x :: l => by
    by_cases hp : p x = true
    · simp [List.filter_cons, hp, h x hp, Nat.succ_le_succ (length_filter_mono h l)]
    · by_cases hq : q x = true
      · simp only [List.filter_cons, if_neg hp, if_pos hq, hq, hp]
        exact Nat.le_trans (length_filter_mono h l) (by simp [Nat.le_succ])
      · simp [List.filter_cons, hp, hq, length_filter_mono h l]

end ListLemmas

/-! ### One-step characterisation of the pop loop -/

/-- Popping from an empty stack does nothing. -/
theorem stackPop_nil (d : Nat) (roots : List NestedTocItem) :
    stackPop d [] roots = ([], roots) := rfl

/-- A top entry of depth `< d` stops the pop loop at once. -/
theorem stackPop_stay {d : Nat} {t : TocItem} (c : List NestedTocItem)
    (stk : List StackEntry) (roots : List NestedTocItem) (h : ¬ d ≤ t.depth) :
    stackPop d ((t, c) :: stk) roots = ((t, c) :: stk, roots) := by
  simp [stackPop, List.takeWhile_cons, List.dropWhile_cons, h]

/-- Popping the sole entry of the stack closes it into the root list. -/
theorem stackPop_last {d : Nat} {t : TocItem} (c : List NestedTocItem)
    (roots : List NestedTocItem) (h : d ≤ t.depth) :
    stackPop d [(t, c)] roots = ([], roots ++ [close t c]) := by
  simp [stackPop, List.takeWhile_cons, List.dropWhile_cons, h, closeRun]

/-- Popping one entry off a stack of at least two entries closes it into the
children of the entry below, after which the loop continues. -/
theorem stackPop_pop {d : Nat} {t t2 : TocItem} (c c2 : List NestedTocItem)
    (r2 : List StackEntry) (roots : List NestedTocItem) (h : d ≤ t.depth) :
    stackPop d ((t, c) :: (t2, c2) :: r2) roots
      = stackPop d ((t2, c2 ++ [close t c]) :: r2) roots := by
  by_cases h2 : d ≤ t2.depth
  · simp [stackPop, List.takeWhile_cons, List.dropWhile_cons, h, h2, closeRun]
  · simp [stackPop, List.takeWhile_cons, List.dropWhile_cons, h, h2, closeRun]

/-! ### The stack algorithm agrees with the recursive-descent specification -/

/-- On exhausted input, running the specification just closes the stack. -/
theorem runSpec_empty (stk : List StackEntry) (roots : List NestedTocItem) :
    runSpec stk roots [] = (stackPop 0 stk roots).2 := by
  match stk with
  | [] => simp [runSpec, buildForest, stackPop_nil]
  | [(t, c)] =>
    rw [stackPop_last c roots (Nat.zero_le _)]
    simp [runSpec, buildForest]
  | (t, c) :: (t2, c2) :: r2 =>
    rw [stackPop_pop c c2 r2 roots (Nat.zero_le _)]
    rw [← runSpec_empty ((t2, c2 ++ [close t c]) :: r2) roots]
    simp [runSpec, buildForest]
termination_by stk.length
decreasing_by all_goals (simp [List.length_cons]; try omega)

/-- Commuting square for one input item: performing the item's pop-and-push on
the stack and then running the specification on the remaining input is the
same as running the specification on the item-headed input. -/
theorem runSpec_step (stk : List StackEntry) (roots : List NestedTocItem)
    (item : TocItem) (rest : List TocItem) :
    runSpec ((item, ([] : List NestedTocItem)) :: (stackPop item.depth stk roots).1)
      (stackPop item.depth stk roots).2 rest
    = runSpec stk roots (item :: rest) := by
  match stk with
  | [] =>
    rw [stackPop_nil]
    simp [runSpec, buildForest]
  | (t, c) :: stk' =>
    by_cases h : item.depth ≤ t.depth
    · have hdT : deeperThan t.depth item = false := by
        simp only [deeperThan, decide_eq_false_iff_not]
        omega
      match stk' with
      | [] =>
        rw [stackPop_last c roots h]
        dsimp only
        have ih := runSpec_step [] (roots ++ [close t c]) item rest
        rw [stackPop_nil] at ih
        dsimp only at ih
        rw [ih]
        simp [runSpec, List.takeWhile_cons, List.dropWhile_cons, hdT, buildForest]
      | (t2, c2) :: r2 =>
        rw [stackPop_pop c c2 r2 roots h]
        rw [runSpec_step ((t2, c2 ++ [close t c]) :: r2) roots item rest]
        simp [runSpec, List.takeWhile_cons, List.dropWhile_cons, hdT, buildForest]
    · rw [stackPop_stay c stk' roots h]
      have hdT : deeperThan t.depth item = true := by
        simp only [deeperThan, decide_eq_true_eq]
        omega
      have himp : ∀ x : TocItem,
          deeperThan item.depth x = true → deeperThan t.depth x = true := by
        intro x hx
        simp only [deeperThan, decide_eq_true_eq] at hx ⊢
        omega
      have e1 : (rest.dropWhile (deeperThan item.depth)).dropWhile (deeperThan t.depth)
          = rest.dropWhile (deeperThan t.depth) := dropWhile_dropWhile_of_imp himp rest
      have e2 : (rest.takeWhile (deeperThan t.depth)).takeWhile (deeperThan item.depth)
          = rest.takeWhile (deeperThan item.depth) := takeWhile_takeWhile_of_imp himp rest
      have e3 : (rest.dropWhile (deeperThan item.depth)).takeWhile (deeperThan t.depth)
          = (rest.takeWhile (deeperThan t.depth)).dropWhile (deeperThan item.depth) :=
        takeWhile_dropWhile_comm himp rest
      match stk' with
      | [] =>
        simp [runSpec, List.takeWhile_cons, List.dropWhile_cons, hdT, buildForest,
          e1, e2, e3]
      | (t2, c2) :: r2 =>
        simp [runSpec, List.takeWhile_cons, List.dropWhile_cons, hdT, buildForest,
          e1, e2, e3]
termination_by stk.length
decreasing_by all_goals (simp [List.length_cons]; try omega)

/-- Folding the input through `stepItem` and closing what remains open
computes `runSpec` of the initial state. -/
theorem foldl_runSpec (l : List TocItem) :
    ∀ (stk : List StackEntry) (roots : List NestedTocItem),
      (stackPop 0 (l.foldl stepItem (stk, roots)).1
        (l.foldl stepItem (stk, roots)).2).2 = runSpec stk roots l := by
  induction l with
  | nil =>
    intro stk roots
    rw [List.foldl_nil, runSpec_empty]
  | cons item l ih =>
    intro stk roots
    rw [List.foldl_cons]
    have hs : stepItem (stk, roots) item
        = ((item, []) :: (stackPop item.depth stk roots).1,
            (stackPop item.depth stk roots).2) := rfl
    rw [hs, ih ((item, []) :: (stackPop item.depth stk roots).1)
      (stackPop item.depth stk roots).2, runSpec_step stk roots item l]

/-- The stack-based builder computes the recursive-descent forest. -/
theorem createNestedList_eq_buildForest (l : List TocItem) :
    createNestedList l = buildForest l := by
  have h := foldl_runSpec l [] []
  simp only [runSpec, List.nil_append] at h
  simpa [createNestedList] using h

/-! ### Structural facts about the built forest -/

/-- The children of a freshly closed node. -/
theorem close_children (it : TocItem) (cs : List NestedTocItem) :
    (close it cs).children = cs := rfl

/-- The depth of a freshly closed node. -/
theorem close_depth (it : TocItem) (cs : List NestedTocItem) :
    (close it cs).depth = it.depth := rfl

/-- Closing a node preserves its flat record. -/
theorem toItem_close (it : TocItem) (cs : List NestedTocItem) :
    toItem (close it cs) = it := rfl

/-- The record of a node determines its depth. -/
theorem depth_toItem (n : NestedTocItem) : (toItem n).depth = n.depth := rfl

/-- Pre-order traversal of a tree, through the accessors. -/
theorem preorderN_eq (n : NestedTocItem) :
    preorderN n = toItem n :: preorderF n.children := by
  cases n
  rfl

/-- All nodes of a tree, through the accessors. -/
theorem memberN_eq (n : NestedTocItem) :
    memberN n = n :: memberF n.children := by
  cases n
  rfl

/-- A tree is among its own nodes. -/
theorem self_mem_memberN (n : NestedTocItem) : n ∈ memberN n := by
  rw [memberN_eq]
  exact List.mem_cons_self n _

/-- Pre-order traversal distributes over forest concatenation. -/
theorem preorderF_append (f g : List NestedTocItem) :
    preorderF (f ++ g) = preorderF f ++ preorderF g := by
  induction f with
  | nil => simp [preorderF]
  | cons n f ih => simp [preorderF, ih]

/-- Node enumeration distributes over forest concatenation. -/
theorem memberF_append (f g : List NestedTocItem) :
    memberF (f ++ g) = memberF f ++ memberF g := by
  induction f with
  | nil => simp [memberF]
  | cons n f ih => simp [memberF, ih]

/-- A root of a forest is among its nodes. -/
theorem mem_memberF_of_mem {n : NestedTocItem} {f : List NestedTocItem}
    (h : n ∈ f) : n ∈ memberF f := by
  induction f with
  | nil => cases h
  | cons m f ih =>
    rcases List.mem_cons.mp h with rfl | h'
    · exact List.mem_append.mpr (Or.inl (self_mem_memberN n))
    · exact List.mem_append.mpr (Or.inr (ih h'))

/-- The record of any node of a forest occurs in the forest's pre-order
traversal. -/
theorem toItem_mem_preorderF :
    ∀ (f : List NestedTocItem) (m : NestedTocItem), m ∈ memberF f →
      toItem m ∈ preorderF f
  | [], m, h => absurd h (by simp [memberF])
  | NestedTocItem.mk v u d cs :: ns, m, h => by
    rcases List.mem_append.mp h with h1 | h2
    · rcases List.mem_cons.mp h1 with rfl | h1'
      · simp [preorderF, preorderN, toItem, NestedTocItem.value, NestedTocItem.url,
          NestedTocItem.depth]
      · have := toItem_mem_preorderF cs m h1'
        simp only [preorderF, preorderN, List.mem_append, List.mem_cons]
        exact Or.inl (Or.inr this)
    · have := toItem_mem_preorderF ns m h2
      simp only [preorderF, List.mem_append]
      exact Or.inr this
termination_by f _ _ => sizeOf f
decreasing_by all_goals (simp; try omega)

/-- Unfolding of `buildForest` on the empty sequence. -/
theorem buildForest_nil : buildForest [] = [] := by
  simp [buildForest]

/-- Unfolding of `buildForest` on a nonempty sequence. -/
theorem buildForest_cons (item : TocItem) (rest : List TocItem) :
    buildForest (item :: rest)
      = close item (buildForest (rest.takeWhile (deeperThan item.depth)))
          :: buildForest (rest.dropWhile (deeperThan item.depth)) := by
  simp [buildForest]

/-- Pre-order traversal of the built forest restores the input sequence. -/
theorem preorderF_buildForest (l : List TocItem) :
    preorderF (buildForest l) = l := by
  match l with
  | [] => simp [buildForest_nil, preorderF]
  | item :: rest =>
    have ih1 := preorderF_buildForest (rest.takeWhile (deeperThan item.depth))
    have ih2 := preorderF_buildForest (rest.dropWhile (deeperThan item.depth))
    rw [buildForest_cons]
    simp only [preorderF, close, preorderN, ih1, ih2]
    simp [List.takeWhile_append_dropWhile]
termination_by l.length
decreasing_by all_goals
  exact Nat.lt_succ_of_le (by first
    | exact (List.takeWhile_sublist _).length_le
    | exact (List.dropWhile_sublist _).length_le)

/-- The built forest has exactly one node per input heading. -/
theorem sizeForest_buildForest (l : List TocItem) :
    sizeForest (buildForest l) = l.length := by
  match l with
  | [] => simp [buildForest_nil, sizeForest]
  | item :: rest =>
    have ih1 := sizeForest_buildForest (rest.takeWhile (deeperThan item.depth))
    have ih2 := sizeForest_buildForest (rest.dropWhile (deeperThan item.depth))
    rw [buildForest_cons]
    simp only [sizeForest, sizeNode, close, ih1, ih2]
    have := congrArg List.length
      (List.takeWhile_append_dropWhile (p := deeperThan item.depth) (l := rest))
    simp only [List.length_append] at this
    simp [List.length_cons]
    omega
termination_by l.length
decreasing_by all_goals
  exact Nat.lt_succ_of_le (by first
    | exact (List.takeWhile_sublist _).length_le
    | exact (List.dropWhile_sublist _).length_le)

/-- Every node of the built forest heads a contiguous block of the input
consisting of its own record followed by the records of its subtree, and
everything strictly inside its subtree is strictly deeper than the node. -/
theorem node_shape (l : List TocItem) :
    ∀ n ∈ memberF (buildForest l),
      (∃ pre post, l = pre ++ preorderN n ++ post) ∧
        ∀ x ∈ preorderF n.children, n.depth < x.depth := by
  match l with
  | [] =>
    intro n hn
    rw [buildForest_nil] at hn
    cases hn
  | item :: rest =>
    intro n hn
    rw [buildForest_cons] at hn
    rw [show memberF
          (close item (buildForest (rest.takeWhile (deeperThan item.depth)))
            :: buildForest (rest.dropWhile (deeperThan item.depth)))
        = memberN (close item (buildForest (rest.takeWhile (deeperThan item.depth))))
            ++ memberF (buildForest (rest.dropWhile (deeperThan item.depth)))
      from rfl] at hn
    rcases List.mem_append.mp hn with h1 | h2
    · rw [memberN_eq] at h1
      rcases List.mem_cons.mp h1 with rfl | h1'
      · constructor
        · refine ⟨[], rest.dropWhile (deeperThan item.depth), ?_⟩
          rw [preorderN_eq, toItem_close, close_children, preorderF_buildForest]
          simp [List.takeWhile_append_dropWhile]
        · intro x hx
          rw [close_children, preorderF_buildForest] at hx
          rw [close_depth]
          have := List.mem_takeWhile_imp hx
          simpa [deeperThan] using this
      · rw [close_children] at h1'
        obtain ⟨⟨pre, post, hsplit⟩, hdeep⟩ :=
          node_shape (rest.takeWhile (deeperThan item.depth)) n h1'
        refine ⟨⟨item :: pre, post ++ rest.dropWhile (deeperThan item.depth), ?_⟩, hdeep⟩
        conv_lhs => rw [show item :: rest
          = item :: (rest.takeWhile (deeperThan item.depth)
              ++ rest.dropWhile (deeperThan item.depth))
          from by rw [List.takeWhile_append_dropWhile]]
        rw [hsplit]
        simp [List.append_assoc]
    · obtain ⟨⟨pre, post, hsplit⟩, hdeep⟩ :=
        node_shape (rest.dropWhile (deeperThan item.depth)) n h2
      refine ⟨⟨item :: rest.takeWhile (deeperThan item.depth) ++ pre, post, ?_⟩, hdeep⟩
      conv_lhs => rw [show item :: rest
        = item :: (rest.takeWhile (deeperThan item.depth)
            ++ rest.dropWhile (deeperThan item.depth))
        from by rw [List.takeWhile_append_dropWhile]]
      rw [hsplit]
      simp [List.append_assoc]
termination_by l.length
decreasing_by all_goals
  exact Nat.lt_succ_of_le (by first
    | exact (List.takeWhile_sublist _).length_le
    | exact (List.dropWhile_sublist _).length_le)

/-- For any occurrence of a heading `a` in the input, the built forest has a
node carrying `a` whose children are built from exactly the maximal run of
strictly deeper headings following that occurrence. -/
theorem occurrence_node :
    ∀ (l xs : List TocItem) (a : TocItem) (r : List TocItem), l = xs ++ a :: r →
      ∃ n ∈ memberF (buildForest l), toItem n = a ∧
        preorderF n.children = r.takeWhile (deeperThan a.depth)
  | _, [], a, r, rfl => by
    rw [List.nil_append, buildForest_cons]
    refine ⟨close a (buildForest (r.takeWhile (deeperThan a.depth))), ?_, rfl, ?_⟩
    · exact List.mem_append.mpr (Or.inl (self_mem_memberN _))
    · rw [close_children, preorderF_buildForest]
  | _, x :: xs', a, r, rfl => by
    rw [List.cons_append, buildForest_cons]
    have hsplit : (xs' ++ a :: r).takeWhile (deeperThan x.depth)
        ++ (xs' ++ a :: r).dropWhile (deeperThan x.depth) = xs' ++ a :: r :=
      List.takeWhile_append_dropWhile (deeperThan x.depth) (xs' ++ a :: r)
    rcases List.append_eq_append_iff.mp hsplit.symm with ⟨m, hm1, hm2⟩ | ⟨m, hm1, hm2⟩
    · -- the takeWhile part extends into the occurrence's suffix
      rcases m with _ | ⟨a', m'⟩
      · -- a heads the dropWhile part
        rw [List.nil_append] at hm2
        obtain ⟨n, hn, hna, hpre⟩ :=
          occurrence_node ((xs' ++ a :: r).dropWhile (deeperThan x.depth)) [] a r
            (by rw [List.nil_append, ← hm2])
        exact ⟨n, List.mem_append.mpr (Or.inr hn), hna, hpre⟩
      · -- the occurrence of a lies inside the takeWhile part
        rw [List.cons_append] at hm2
        injection hm2 with h1 h2
        subst h1
        obtain ⟨n, hn, hna, hpre⟩ :=
          occurrence_node ((xs' ++ a :: r).takeWhile (deeperThan x.depth)) xs' a m' hm1
        refine ⟨n, ?_, hna, ?_⟩
        · refine List.mem_append.mpr (Or.inl ?_)
          rw [memberN_eq, close_children]
          exact List.mem_cons_of_mem _ hn
        · have hmem : a ∈ (xs' ++ a :: r).takeWhile (deeperThan x.depth) := by
            rw [hm1]
            exact List.mem_append.mpr (Or.inr (List.mem_cons_self _ _))
          have hxa : x.depth < a.depth := by
            have := List.mem_takeWhile_imp hmem
            simpa [deeperThan] using this
          have himp : ∀ y : TocItem,
              deeperThan a.depth y = true → deeperThan x.depth y = true := by
            intro y hy
            simp only [deeperThan, decide_eq_true_eq] at hy ⊢
            omega
          have hnil : ((xs' ++ a :: r).dropWhile (deeperThan x.depth)).takeWhile
              (deeperThan a.depth) = [] := takeWhile_dropWhile_nil himp _
          rw [hpre, h2, takeWhile_append_of_nil hnil]
    · -- the occurrence of a lies inside the dropWhile part
      obtain ⟨n, hn, hna, hpre⟩ :=
        occurrence_node ((xs' ++ a :: r).dropWhile (deeperThan x.depth)) m a r hm2
      exact ⟨n, List.mem_append.mpr (Or.inr hn), hna, hpre⟩
termination_by l _ _ _ _ => l.length
decreasing_by all_goals
  first
  | (simp only [List.cons_append, List.length_cons]
     exact Nat.lt_succ_of_le (List.dropWhile_sublist _).length_le)
  | (simp only [List.cons_append, List.length_cons]
     exact Nat.lt_succ_of_le (List.takeWhile_sublist _).length_le)

/-! ### Filtering lemmas -/

/-- Unfolding of `preorderF` on a nonempty forest. -/
theorem preorderF_cons (n : NestedTocItem) (ns : List NestedTocItem) :
    preorderF (n :: ns) = preorderN n ++ preorderF ns := by
  simp [preorderF]

/-- Propositional characterisation of the compiled regex test. -/
theorem reTest_iff (e : Exclude) (v : String) :
    reTest e v = true ↔ ∃ p ∈ excludeAlternatives e, lowerStr p = lowerStr v := by
  simp [reTest, List.any_eq_true, beq_iff_eq]

/-- Membership in the filtered sequence, unfolded. -/
theorem mem_filteredToc (cfg : TOCConfig) (toc : List TocItem) (h : TocItem) :
    h ∈ filteredToc cfg toc ↔
      h ∈ toc ∧ cfg.fromHeading ≤ h.depth ∧ h.depth ≤ cfg.toHeading ∧
        reTest cfg.exclude h.value = false := by
  simp [filteredToc, List.mem_filter, and_assoc]

/-- The exclusion set named by the specification: the single pattern, or the
members of the pattern array. -/
def excludeSet : Exclude → List String
  | .str s => [s]
  | .arr l => l

/-- Modelled from the spec: a heading's display value "matches the exclusion
rule" when it equals the exclusion pattern, or some pattern of the exclusion
set, under case-insensitive exact-match comparison. -/
def specExcluded (e : Exclude) (v : String) : Prop :=
  ∃ p ∈ excludeSet e, lowerStr p = lowerStr v

instance (e : Exclude) (v : String) : Decidable (specExcluded e v) :=
  inferInstanceAs (Decidable (∃ p ∈ excludeSet e, lowerStr p = lowerStr v))

/-- On a nonempty exclusion set, the compiled alternatives are exactly the
specification's exclusion set. -/
theorem alternatives_eq_of_ne {e : Exclude} (h : excludeSet e ≠ []) :
    excludeAlternatives e = excludeSet e := by
  cases e with
  | str s => rfl
  | arr l =>
    cases l with
    | nil => exact absurd rfl h
    | cons p ps => rfl

/-! ### Claims -/

/-- C1 counterexample: with the exclusion prop set to the empty array, the
claimed filter characterisation fails on a heading with empty display value
and depth 1: the compiled regex `^()$` drops it, while no pattern of the
(empty) exclusion set equals its value. -/
theorem C1_counterexample :
    ¬ ((⟨"", "#", 1⟩ : TocItem) ∈ filteredToc
          ⟨1, 6, false, Exclude.arr [], false, "list-decimal", ""⟩
          [⟨"", "#", 1⟩] ↔
        (⟨"", "#", 1⟩ : TocItem) ∈ ([⟨"", "#", 1⟩] : List TocItem) ∧
          1 ≤ (1 : Nat) ∧ (1 : Nat) ≤ 6 ∧
          ¬ specExcluded (Exclude.arr []) "") := by
  decide

/-- C1 (amended): a heading is retained by the filter iff
`fromHeading ≤ depth ≤ toHeading` and its display value does not equal, under
case-insensitive exact-match comparison, any alternative of the compiled
exclusion pattern — where the alternatives are the exclusion pattern(s) as
given, except that an empty exclusion array compiles to the single empty
alternative (the regex `^()$`, which matches exactly the empty value).
Filtering is applied to the flat sequence before tree construction begins. -/
theorem C1_filter_characterization :
    (∀ (cfg : TOCConfig) (toc : List TocItem) (h : TocItem),
      h ∈ filteredToc cfg toc ↔
        h ∈ toc ∧ cfg.fromHeading ≤ h.depth ∧ h.depth ≤ cfg.toHeading ∧
          ¬ ∃ p ∈ excludeAlternatives cfg.exclude, lowerStr p = lowerStr h.value) ∧
    (∀ (cfg : TOCConfig) (toc : List TocItem),
      tocForest cfg toc = createNestedList (filteredToc cfg toc)) := by
  constructor
  · intro cfg toc h
    rw [mem_filteredToc]
    refine and_congr_right fun _ => and_congr_right fun _ => and_congr_right fun _ => ?_
    rw [← reTest_iff]
    constructor
    · intro hf hy
      rw [hf] at hy
      cases hy
    · intro hn
      cases hr : reTest cfg.exclude h.value
      · rfl
      · exact absurd hr hn
  · intro cfg toc
    rfl

/-- C2: the number of nodes in the forest rendered by the component
(roots plus all descendants, counted recursively) equals the number of
headings remaining after depth and exclusion filtering. -/
theorem C2_size_eq_filtered_length (cfg : TOCConfig) (toc : List TocItem) :
    sizeForest (tocForest cfg toc) = (filteredToc cfg toc).length := by
  rw [tocForest, createNestedList_eq_buildForest, sizeForest_buildForest]

/-- C3: every node of the forest has only strictly deeper children, and for
each child the filtered sequence splits as
`pre ++ parent :: (mid ++ child :: post)` where everything in `mid` (the
headings between the parent and that child) is strictly deeper than the
parent. -/
theorem C3_children_deeper_and_contiguous (cfg : TOCConfig) (toc : List TocItem)
    (n c : NestedTocItem) (hn : n ∈ memberF (tocForest cfg toc))
    (hc : c ∈ n.children) :
    n.depth < c.depth ∧
      ∃ pre mid post,
        filteredToc cfg toc = pre ++ toItem n :: (mid ++ toItem c :: post) ∧
          ∀ x ∈ mid, n.depth < x.depth := by
  rw [tocForest, createNestedList_eq_buildForest] at hn
  obtain ⟨⟨pre, post₀, hsplit⟩, hdeep⟩ := node_shape (filteredToc cfg toc) n hn
  constructor
  · have hcm : toItem c ∈ preorderF n.children :=
      toItem_mem_preorderF n.children c (mem_memberF_of_mem hc)
    have := hdeep (toItem c) hcm
    rwa [depth_toItem] at this
  · obtain ⟨cs₁, cs₂, hcs⟩ := List.append_of_mem hc
    refine ⟨pre, preorderF cs₁,
      preorderF c.children ++ (preorderF cs₂ ++ post₀), ?_, ?_⟩
    · rw [hsplit, preorderN_eq, hcs]
      simp [preorderF_append, preorderF_cons, preorderN_eq, List.append_assoc]
    · intro x hx
      apply hdeep
      rw [hcs, preorderF_append]
      exact List.mem_append.mpr (Or.inl hx)

/-- C3 witness: in the default configuration, on the two-heading input
`A` (depth 1), `B` (depth 2), the root node for `A` has the node for `B` as a
child and the conclusion of the claim holds for this pair. -/
theorem C3_witness :
    NestedTocItem.mk "A" "#a" 1 [NestedTocItem.mk "B" "#b" 2 []] ∈
        memberF (tocForest ⟨1, 6, false, Exclude.str "", false, "list-decimal", ""⟩
          [⟨"A", "#a", 1⟩, ⟨"B", "#b", 2⟩]) ∧
      NestedTocItem.mk "B" "#b" 2 [] ∈
        (NestedTocItem.mk "A" "#a" 1 [NestedTocItem.mk "B" "#b" 2 []]).children ∧
      ((NestedTocItem.mk "A" "#a" 1 [NestedTocItem.mk "B" "#b" 2 []]).depth
          < (NestedTocItem.mk "B" "#b" 2 []).depth ∧
        ∃ pre mid post,
          filteredToc ⟨1, 6, false, Exclude.str "", false, "list-decimal", ""⟩
              [⟨"A", "#a", 1⟩, ⟨"B", "#b", 2⟩]
            = pre ++ toItem (NestedTocItem.mk "A" "#a" 1 [NestedTocItem.mk "B" "#b" 2 []])
                :: (mid ++ toItem (NestedTocItem.mk "B" "#b" 2 []) :: post) ∧
            ∀ x ∈ mid,
              (NestedTocItem.mk "A" "#a" 1 [NestedTocItem.mk "B" "#b" 2 []]).depth
                < x.depth) :=
  ⟨List.mem_cons_self _ _, List.mem_cons_self _ _,
    C3_children_deeper_and_contiguous _ _ _ _
      (List.mem_cons_self _ _) (List.mem_cons_self _ _)⟩

/-- C4: if `b` directly follows `a` in the filtered sequence and is strictly
deeper, then the forest has a node carrying `a` whose first child carries `b`
— also when the depth jump exceeds 1, which is absorbed structurally. -/
theorem C4_deeper_is_child (cfg : TOCConfig) (toc : List TocItem)
    (xs ys : List TocItem) (a b : TocItem)
    (hsplit : filteredToc cfg toc = xs ++ a :: b :: ys)
    (hd : a.depth < b.depth) :
    ∃ n ∈ memberF (tocForest cfg toc), toItem n = a ∧
      ∃ c cs, n.children = c :: cs ∧ toItem c = b := by
  rw [tocForest, createNestedList_eq_buildForest]
  obtain ⟨n, hn, hna, hpre⟩ :=
    occurrence_node (filteredToc cfg toc) xs a (b :: ys) hsplit
  refine ⟨n, hn, hna, ?_⟩
  have hb : deeperThan a.depth b = true := by
    simp only [deeperThan, decide_eq_true_eq]
    omega
  rw [List.takeWhile_cons, if_pos hb] at hpre
  cases hcs : n.children with
  | nil =>
    rw [hcs] at hpre
    simp [preorderF] at hpre
  | cons c cs =>
    rw [hcs, preorderF_cons, preorderN_eq, List.cons_append] at hpre
    injection hpre with h1 h2
    exact ⟨c, cs, rfl, h1⟩

/-- C4 witness: the depth-skip input `A` (depth 1), `Z` (depth 3) of the
specification's Example 3, under the default configuration. -/
theorem C4_witness :
    filteredToc ⟨1, 6, false, Exclude.str "", false, "list-decimal", ""⟩
        [⟨"A", "#a", 1⟩, ⟨"Z", "#z", 3⟩]
      = [] ++ (⟨"A", "#a", 1⟩ : TocItem) :: (⟨"Z", "#z", 3⟩ : TocItem) :: [] ∧
    (⟨"A", "#a", 1⟩ : TocItem).depth < (⟨"Z", "#z", 3⟩ : TocItem).depth ∧
    ∃ n ∈ memberF (tocForest ⟨1, 6, false, Exclude.str "", false, "list-decimal", ""⟩
        [⟨"A", "#a", 1⟩, ⟨"Z", "#z", 3⟩]),
      toItem n = ⟨"A", "#a", 1⟩ ∧
        ∃ c cs, n.children = c :: cs ∧ toItem c = ⟨"Z", "#z", 3⟩ :=
  ⟨rfl, by decide, C4_deeper_is_child _ _ [] [] _ _ rfl (by decide)⟩

/-- C5: if `b` directly follows `a` in the filtered sequence and is not
deeper, then the node built for that occurrence of `a` is a leaf, and no node
carrying `a` anywhere in the forest has a descendant carrying `b` (all
descendants are strictly deeper than `a`, while `b` is not). -/
theorem C5_shallower_not_descendant (cfg : TOCConfig) (toc : List TocItem)
    (xs ys : List TocItem) (a b : TocItem)
    (hsplit : filteredToc cfg toc = xs ++ a :: b :: ys)
    (hd : b.depth ≤ a.depth) :
    (∃ n ∈ memberF (tocForest cfg toc), toItem n = a ∧ n.children = []) ∧
      ∀ n ∈ memberF (tocForest cfg toc), toItem n = a →
        ∀ m ∈ memberF n.children, toItem m ≠ b := by
  rw [tocForest, createNestedList_eq_buildForest]
  constructor
  · obtain ⟨n, hn, hna, hpre⟩ :=
      occurrence_node (filteredToc cfg toc) xs a (b :: ys) hsplit
    have hb : deeperThan a.depth b = false := by
      simp only [deeperThan, decide_eq_false_iff_not]
      omega
    rw [List.takeWhile_cons, if_neg (by simp [hb])] at hpre
    refine ⟨n, hn, hna, ?_⟩
    cases hcs : n.children with
    | nil => rfl
    | cons c cs =>
      rw [hcs, preorderF_cons, preorderN_eq, List.cons_append] at hpre
      cases hpre
  · intro n hn hna m hm hmb
    obtain ⟨-, hdeep⟩ := node_shape (filteredToc cfg toc) n hn
    have hmem : toItem m ∈ preorderF n.children := toItem_mem_preorderF _ m hm
    have hlt := hdeep _ hmem
    have hnd : n.depth = a.depth := by rw [← depth_toItem, hna]
    rw [hmb] at hlt
    rw [hnd] at hlt
    exact absurd hlt (by omega)

/-- C5 witness: the same-depth siblings `B` (depth 2), `C` (depth 2) from the
specification's Example 1, under the default configuration. -/
theorem C5_witness :
    filteredToc ⟨1, 6, false, Exclude.str "", false, "list-decimal", ""⟩
        [⟨"B", "#b", 2⟩, ⟨"C", "#c", 2⟩]
      = [] ++ (⟨"B", "#b", 2⟩ : TocItem) :: (⟨"C", "#c", 2⟩ : TocItem) :: [] ∧
    (⟨"C", "#c", 2⟩ : TocItem).depth ≤ (⟨"B", "#b", 2⟩ : TocItem).depth ∧
    ((∃ n ∈ memberF (tocForest ⟨1, 6, false, Exclude.str "", false, "list-decimal", ""⟩
          [⟨"B", "#b", 2⟩, ⟨"C", "#c", 2⟩]),
        toItem n = ⟨"B", "#b", 2⟩ ∧ n.children = []) ∧
      ∀ n ∈ memberF (tocForest ⟨1, 6, false, Exclude.str "", false, "list-decimal", ""⟩
          [⟨"B", "#b", 2⟩, ⟨"C", "#c", 2⟩]),
        toItem n = ⟨"B", "#b", 2⟩ →
          ∀ m ∈ memberF n.children, toItem m ≠ ⟨"C", "#c", 2⟩) :=
  ⟨rfl, by decide, C5_shallower_not_descendant _ _ [] [] _ _ rfl (by decide)⟩

/-- C6: when filtering leaves nothing, the forest is empty and the renderer
emits the empty fragment — not an empty list container (`Html.fragment` is
distinct from any `Html.ul`). -/
theorem C6_empty_renders_nothing (cfg : TOCConfig) (toc : List TocItem)
    (h : filteredToc cfg toc = []) :
    tocForest cfg toc = [] ∧
      createList cfg.ulClassName cfg.liClassName (tocForest cfg toc)
        = Html.fragment ∧
      ∀ (s : String) (hs : List Html), Html.fragment ≠ Html.ul s hs := by
  have h1 : tocForest cfg toc = [] := by
    rw [tocForest, h]
    rfl
  refine ⟨h1, ?_, ?_⟩
  · rw [h1]
    simp [createList]
  · intro s hs hcontra
    cases hcontra

/-- C6 witness: the empty input sequence under the default configuration. -/
theorem C6_witness :
    filteredToc ⟨1, 6, false, Exclude.str "", false, "list-decimal", ""⟩ [] = [] ∧
    (tocForest ⟨1, 6, false, Exclude.str "", false, "list-decimal", ""⟩ [] = [] ∧
      createList "list-decimal" ""
          (tocForest ⟨1, 6, false, Exclude.str "", false, "list-decimal", ""⟩ [])
        = Html.fragment ∧
      ∀ (s : String) (hs : List Html), Html.fragment ≠ Html.ul s hs) :=
  ⟨rfl, C6_empty_renders_nothing ⟨1, 6, false, Exclude.str "", false, "list-decimal", ""⟩ [] rfl⟩

/-- C7 counterexample: adding the pattern `"x"` to the empty exclusion array
increases the node count from 0 to 1 on a single empty-valued heading — the
empty array compiles to the regex `^()$`, which excludes the heading, while
`^(x)$` does not. -/
theorem C7_counterexample :
    sizeForest (tocForest ⟨1, 6, false, Exclude.arr [], false, "list-decimal", ""⟩
        [⟨"", "#", 1⟩])
      < sizeForest (tocForest ⟨1, 6, false, Exclude.arr ["x"], false, "list-decimal", ""⟩
        [⟨"", "#", 1⟩]) := by
  decide

/-- C7 (amended): raising `fromHeading` or lowering `toHeading` never
increases the node count of the forest; and the same holds when patterns are
additionally added to the exclusion configuration, provided the original
exclusion set is nonempty.  (Nonemptiness is needed only for pattern
addition: an unchanged exclusion — including the empty array — narrows
monotonically, but the empty exclusion set compiles to the regex `^()$`,
which excludes empty-valued headings that a larger pattern set may retain.) -/
theorem C7_monotonic (cfg cfg' : TOCConfig) (toc : List TocItem)
    (hfrom : cfg.fromHeading ≤ cfg'.fromHeading)
    (hto : cfg'.toHeading ≤ cfg.toHeading)
    (hex : cfg'.exclude = cfg.exclude ∨
      ((∀ p ∈ excludeSet cfg.exclude, p ∈ excludeSet cfg'.exclude) ∧
        excludeSet cfg.exclude ≠ [])) :
    sizeForest (tocForest cfg' toc) ≤ sizeForest (tocForest cfg toc) := by
  rw [tocForest, tocForest, createNestedList_eq_buildForest,
    createNestedList_eq_buildForest, sizeForest_buildForest, sizeForest_buildForest]
  apply length_filter_mono
  intro h hh
  simp only [Bool.and_eq_true, decide_eq_true_eq, Bool.not_eq_true'] at hh ⊢
  obtain ⟨⟨h1, h2⟩, h3⟩ := hh
  refine ⟨⟨by omega, by omega⟩, ?_⟩
  rcases hex with heq | ⟨hsub, hne⟩
  · rw [← heq]
    exact h3
  · cases hr : reTest cfg.exclude h.value
    · rfl
    · exfalso
      obtain ⟨p, hp, hpe⟩ := (reTest_iff _ _).mp hr
      have hne' : excludeSet cfg'.exclude ≠ [] := by
        obtain ⟨p0, hp0⟩ : ∃ p0, p0 ∈ excludeSet cfg.exclude := by
          cases hli : excludeSet cfg.exclude with
          | nil => exact absurd hli hne
          | cons q qs => exact ⟨q, hli ▸ List.mem_cons_self q qs⟩
        exact List.ne_nil_of_mem (hsub p0 hp0)
      have hp' : p ∈ excludeAlternatives cfg'.exclude := by
        rw [alternatives_eq_of_ne hne']
        exact hsub p (by rwa [alternatives_eq_of_ne hne] at hp)
      have : reTest cfg'.exclude h.value = true := (reTest_iff _ _).mpr ⟨p, hp', hpe⟩
      rw [h3] at this
      cases this

/-- C7 witness: narrowing the depth range from `[1,6]` to `[2,5]` with the
exclusion left at the empty array — exactly the configuration the
counterexample is about — never increases the node count. -/
theorem C7_witness :
    (⟨1, 6, false, Exclude.arr [], false, "list-decimal", ""⟩ : TOCConfig).fromHeading
        ≤ (⟨2, 5, false, Exclude.arr [], false, "list-decimal", ""⟩ : TOCConfig).fromHeading ∧
    (⟨2, 5, false, Exclude.arr [], false, "list-decimal", ""⟩ : TOCConfig).toHeading
        ≤ (⟨1, 6, false, Exclude.arr [], false, "list-decimal", ""⟩ : TOCConfig).toHeading ∧
    ((⟨2, 5, false, Exclude.arr [], false, "list-decimal", ""⟩ : TOCConfig).exclude
        = (⟨1, 6, false, Exclude.arr [], false, "list-decimal", ""⟩ : TOCConfig).exclude ∨
      ((∀ p ∈ excludeSet (Exclude.arr []), p ∈ excludeSet (Exclude.arr [])) ∧
        excludeSet (Exclude.arr []) ≠ [])) ∧
    sizeForest (tocForest ⟨2, 5, false, Exclude.arr [], false, "list-decimal", ""⟩
        [⟨"A", "#a", 1⟩, ⟨"B", "#b", 2⟩])
      ≤ sizeForest (tocForest ⟨1, 6, false, Exclude.arr [], false, "list-decimal", ""⟩
        [⟨"A", "#a", 1⟩, ⟨"B", "#b", 2⟩]) :=
  ⟨by decide, by decide, Or.inl rfl,
    C7_monotonic _ _ _ (by decide) (by decide) (Or.inl rfl)⟩

/-- C9: with the default `exclude` (the empty string), the compiled exclusion
regex `^()$` matches the empty string, so every heading whose display value
is empty is filtered out of the table of contents. -/
theorem C9_default_excludes_empty :
    reTest (Exclude.str "") "" = true ∧
      ∀ (cfg : TOCConfig) (toc : List TocItem) (h : TocItem),
        cfg.exclude = Exclude.str "" → h.value = "" →
          h ∉ filteredToc cfg toc := by
  refine ⟨rfl, ?_⟩
  intro cfg toc h hex hv hmem
  rw [mem_filteredToc] at hmem
  obtain ⟨-, -, -, hr⟩ := hmem
  rw [hex, hv] at hr
  cases hr

/-- C9 witness: an empty-valued heading of depth 3 is dropped under the
default configuration. -/
theorem C9_witness :
    (⟨1, 6, false, Exclude.str "", false, "list-decimal", ""⟩ : TOCConfig).exclude
        = Exclude.str "" ∧
    (⟨"", "#x", 3⟩ : TocItem).value = "" ∧
    (⟨"", "#x", 3⟩ : TocItem) ∉ filteredToc
        ⟨1, 6, false, Exclude.str "", false, "list-decimal", ""⟩ [⟨"", "#x", 3⟩] :=
  ⟨rfl, rfl, C9_default_excludes_empty.2 _ _ _ rfl rfl⟩

/-- C10: the pre-order traversal of the rendered forest is exactly the
filtered input sequence — the builder neither permutes nor duplicates. -/
theorem C10_preorder_id (cfg : TOCConfig) (toc : List TocItem) :
    preorderF (tocForest cfg toc) = filteredToc cfg toc := by
  rw [tocForest, createNestedList_eq_buildForest, preorderF_buildForest]

end TOC
